import Mathlib

/-!
Verification development for a Monte Carlo Tree Search engine
(src/main.py of mcts-algorithm-structure-SigmaGo).

The Python source is embedded shallowly:

* `GoGame` mirrors the class `GoGame` (an n x n board of integers,
  `current_player` being 1 or 2), with `get_legal_moves`, `play`,
  and the bodies of `is_terminal` / `get_result` as `isTerminalState` /
  `getResultState`.
* The mutable `Node` objects (fields `state`, `parent`, `children`,
  `wins`, `visits`) become the inductive `MNode`; the parent pointer is
  replaced by explicit root-to-node index paths (`List Nat`), and the
  in-place mutations of `_backpropagate`, `_expand` and the rollout
  become the path-indexed functional updates `backprop`, `expandAt`,
  `setStateAt`.
* `random.choice` is modelled by an explicit oracle `choose : GoGame → Nat`
  giving the index of the chosen legal move; all theorems quantify over it.
* Floating point numbers are modelled by real numbers, so `ucb1`,
  `best_child` and everything calling them is noncomputable; every
  concrete evaluation below stays on code paths that never compare two
  real scores (empty or singleton child lists).
-/

/-- Moves are the `(x, y)` tuples built by `GoGame.get_legal_moves`. -/
abbrev Move : Type := Nat × Nat

/-- The class `GoGame`: `board_size`, an n x n `board` of integers
(0 empty, 1 and 2 the players), and `current_player`. -/
structure GoGame where
  board_size : Nat
  board : List (List Int)
  current_player : Int
deriving DecidableEq, Repr

/-- Reading `board[x][y]`; out-of-range reads never occur on the paths the
source exercises (legal moves are generated in range). -/
def bget (s : GoGame) (x y : Nat) : Int := (s.board.getD x []).getD y 0

/-- `GoGame.get_legal_moves`: all `(x, y)` with `board[x][y] == 0`,
produced in row-major order exactly as the two nested `for` loops do. -/
def GoGame.get_legal_moves (s : GoGame) : List Move :=
  (List.range s.board_size).flatMap fun x =>
    (List.range s.board_size).filterMap fun y =>
      if bget s x y = 0 then some (x, y) else none

/-- `GoGame.play`: writes `current_player` at `move` and flips the player
to `3 - current_player`. -/
def GoGame.play (s : GoGame) (m : Move) : GoGame :=
  { s with
    board := s.board.set m.1 ((s.board.getD m.1 []).set m.2 s.current_player)
    current_player := 3 - s.current_player }

/-- Body of `GoGame.is_terminal(self, state)`: no legal moves remain.
This is also the semantics the engine expects from a conforming
state-supplied `is_terminal` (the arity mismatch of the bundled game is
modelled separately for claim C10). -/
def isTerminalState (s : GoGame) : Bool := s.get_legal_moves.isEmpty

/-- Value of `np.sum(state.board)`. -/
def boardSum (s : GoGame) : Int := (s.board.map (fun r => r.sum)).sum

/-- Body of `GoGame.get_result(self, state)`: player 1 wins when the board
sum is positive, otherwise player 2. -/
def getResultState (s : GoGame) : Int := if boardSum s > 0 then 1 else 2

/-- `copy.deepcopy` on a game state: in this value-level embedding a deep
copy is the value itself. -/
def deepcopy (s : GoGame) : GoGame := s

/-- The class `Node`: `state`, `wins`, `visits`, and the insertion-ordered
`children`. The Python parent pointer is represented externally by paths. -/
inductive MNode : Type where
  | mk : GoGame → Nat → Nat → List MNode → MNode
deriving Repr

/-- Field `Node.state`. -/
def MNode.state : MNode → GoGame
  | .mk s _ _ _ => s

/-- Field `Node.wins`. -/
def MNode.wins : MNode → Nat
  | .mk _ w _ _ => w

/-- Field `Node.visits`. -/
def MNode.visits : MNode → Nat
  | .mk _ _ v _ => v

/-- Field `Node.children`. -/
def MNode.children : MNode → List MNode
  | .mk _ _ _ cs => cs

@[simp] theorem MNode.state_mk (s : GoGame) (w v : Nat) (cs : List MNode) :
    (MNode.mk s w v cs).state = s := rfl

@[simp] theorem MNode.wins_mk (s : GoGame) (w v : Nat) (cs : List MNode) :
    (MNode.mk s w v cs).wins = w := rfl

@[simp] theorem MNode.visits_mk (s : GoGame) (w v : Nat) (cs : List MNode) :
    (MNode.mk s w v cs).visits = v := rfl

@[simp] theorem MNode.children_mk (s : GoGame) (w v : Nat) (cs : List MNode) :
    (MNode.mk s w v cs).children = cs := rfl

/-- `Node.__init__` for a root: wins and visits start at 0, no children. -/
def rootNode (s : GoGame) : MNode := MNode.mk s 0 0 []

/-- `Node.is_fully_expanded`: child count equals the legal-move count of
the current state. -/
def isFullyExpanded (t : MNode) : Bool :=
  t.children.length == t.state.get_legal_moves.length

/-- Replace the element at an index by `f` of it, other positions and
out-of-range indices untouched (the effect of mutating one child). -/
def modifyAt (f : MNode → MNode) : List MNode → Nat → List MNode
  | [], _ => []
  | c :: cs, 0 => f c :: cs
  | c :: cs, n + 1 => c :: modifyAt f cs n

/-- The node reached from `t` by following a root-to-node index path. -/
def getAt : List Nat → MNode → Option MNode
  | [], t => some t
  | i :: p, t =>
    match t.children[i]? with
    | some c => getAt p c
    | none => none

/-- `MCTS._backpropagate`: walking from the root down the path to the node
the Python walk started at, increment `visits` everywhere and increment
`wins` exactly when `node.state.current_player == result` (this is what
line 82 of the source compares, the node's own current player). -/
def backprop (result : Int) : List Nat → MNode → MNode
  | [], .mk s w v cs =>
      MNode.mk s (if s.current_player = result then w + 1 else w) (v + 1) cs
  | i :: p, .mk s w v cs =>
      MNode.mk s (if s.current_player = result then w + 1 else w) (v + 1)
        (modifyAt (backprop result p) cs i)

/-- Overwrite the state of the node at the given path (the in-place
mutation the rollout performs on `node.state`). -/
def setStateAt (s' : GoGame) : List Nat → MNode → MNode
  | [], .mk _ w v cs => MNode.mk s' w v cs
  | i :: p, .mk s w v cs => MNode.mk s w v (modifyAt (setStateAt s' p) cs i)

/-- The membership test of `MCTS._expand` line 71: `move in [child.state
for child in node.children]` compares an `(x, y)` tuple with a `GoGame`
object; in Python equality between these unrelated types is always
`False`. -/
def pyEqMoveState (_ : Move) (_ : GoGame) : Bool := false

/-- The first legal move passing the (vacuous) membership test of
`_expand`; `none` exactly when `legal_moves` is empty. -/
def untriedMove (t : MNode) : Option Move :=
  t.state.get_legal_moves.find? fun m =>
    !(t.children.any fun c => pyEqMoveState m c.state)

/-- `MCTS._expand`: deep-copy the state, play the found move, append the
new child; if no move passes the test, return the node unchanged. -/
def expand (t : MNode) : MNode :=
  match untriedMove t with
  | some m =>
      MNode.mk t.state t.wins t.visits
        (t.children ++ [MNode.mk ((deepcopy t.state).play m) 0 0 []])
  | none => t

/-- `_expand` applied to the node at a path. -/
def expandAt : List Nat → MNode → MNode
  | [], t => expand t
  | i :: p, .mk s w v cs => MNode.mk s w v (modifyAt (expandAt p) cs i)

/-- One step of `random_policy` against a conforming state: pick the legal
move indexed by the oracle (mod the number of legal moves) and play it.
The fuel is the number of legal moves of the start state, enough because
each `play` fills an empty cell. -/
def rolloutAux (choose : GoGame → Nat) : Nat → GoGame → Int × GoGame
  | 0, s => (getResultState s, s)
  | fuel + 1, s =>
    if isTerminalState s then (getResultState s, s)
    else
      let legal := s.get_legal_moves
      rolloutAux choose fuel (s.play (legal.getD (choose s % legal.length) (0, 0)))

/-- `random_policy` with conforming zero-argument state methods: returns
the outcome together with the final state the loop left behind (Python
mutated its argument into exactly that state). -/
def random_policy (choose : GoGame → Nat) (s : GoGame) : Int × GoGame :=
  rolloutAux choose s.get_legal_moves.length s

theorem modifyAt_nil (f : MNode → MNode) (n : Nat) : modifyAt f [] n = [] := rfl

theorem getElem?_modifyAt_self (f : MNode → MNode) :
    ∀ (cs : List MNode) (i : Nat), (modifyAt f cs i)[i]? = cs[i]?.map f
  | [], _ => by simp [modifyAt]
  | c :: cs, 0 => by simp [modifyAt]
  | c :: cs, n + 1 => by
      simpa [modifyAt] using getElem?_modifyAt_self f cs n

theorem getElem?_modifyAt_ne (f : MNode → MNode) :
    ∀ (cs : List MNode) (i j : Nat), i ≠ j →
      (modifyAt f cs i)[j]? = cs[j]?
  | [], _, _, _ => by simp [modifyAt]
  | c :: cs, 0, 0, h => absurd rfl h
  | c :: cs, 0, j + 1, _ => by simp [modifyAt]
  | c :: cs, i + 1, 0, _ => by simp [modifyAt]
  | c :: cs, i + 1, j + 1, h => by
      have hij : i ≠ j := fun he => h (by simp [he])
      simpa [modifyAt] using getElem?_modifyAt_ne f cs i j hij

/-- The formula `ucb1` of the source (line 11): exploitation term plus
exploration term; `node.parent.visits` is passed explicitly because the
embedding replaces parent pointers by paths. `np.log` is the natural
logarithm and `np.sqrt` the square root, modelled on the reals. -/
noncomputable def ucb1 (parentVisits : Nat) (c : MNode) (w : ℝ) : ℝ :=
  (c.wins : ℝ) / (c.visits : ℝ) +
    w * Real.sqrt (Real.log (parentVisits : ℝ) / (c.visits : ℝ))

/-- The scoring formula exactly as the specification words it (section 4.2):
`score(c) = c.winCount / c.visitCount + explorationWeight *
sqrt(ln(parent.visitCount) / c.visitCount)`. Stated separately from `ucb1`
so that the source formula can be compared against the spec formula. -/
noncomputable def specScore (parentVisits : Nat) (c : MNode) (w : ℝ) : ℝ :=
  ((c.wins : ℝ) / (c.visits : ℝ)) +
    w * Real.sqrt (Real.log (parentVisits : ℝ) / (c.visits : ℝ))

/-- Index of the first maximal element, the semantics of `np.argmax`. -/
def argmaxIdx {α : Type} [LinearOrder α] : List α → Nat
  | [] => 0
  | [_] => 0
  | x :: y :: xs =>
    let j := argmaxIdx (y :: xs)
    if x < (y :: xs).getD j x then j + 1 else 0

/-- The default exploration weight 1.41 of the source. -/
noncomputable def explorationDefault : ℝ := 1.41

/-- The scores `[ucb1(child, w) for child in node.children]`. -/
noncomputable def childScores (t : MNode) (w : ℝ) : List ℝ :=
  t.children.map fun c => ucb1 t.visits c w

/-- Index chosen by `np.argmax(choices_weights)`. -/
noncomputable def bestChildIdx (t : MNode) (w : ℝ) : Nat :=
  argmaxIdx (childScores t w)

/-- `Node.best_child`: the child at the argmax index; `np.argmax` of an
empty sequence raises `ValueError`, modelled as `none`. -/
noncomputable def best_child (t : MNode) (w : ℝ) : Option MNode :=
  if t.children.isEmpty then none else t.children[bestChildIdx t w]?

/-- `MCTS._select`, instrumented: descends through fully expanded
non-terminal nodes via `best_child` (default exploration weight). The
first component is the root-to-node index path of the reached node; the
second component is ghost instrumentation recording the `visits` value of
every child that `ucb1` was applied to along the way. The fuel bounds the
descent depth; `searchStep` passes `sizeOf t`, which exceeds the depth of
`t`, so the fuel never runs out on the trees the search builds. -/
noncomputable def selectAux : Nat → MNode → List Nat × List Nat
  | 0, _ => ([], [])
  | fuel + 1, t =>
    if !isTerminalState t.state && isFullyExpanded t then
      let i := bestChildIdx t explorationDefault
      match t.children[i]? with
      | some c =>
        let r := selectAux fuel c
        (i :: r.1, t.children.map MNode.visits ++ r.2)
      | none => ([], t.children.map MNode.visits)
    else ([], [])

/-- One iteration of the loop in `MCTS.search` (lines 55-60): select,
expand unless terminal, simulate from the resulting node's state (the
rollout leaves its final state in the node, since `random_policy` plays
its moves on the state object it is handed), and backpropagate the
outcome along the walked path. -/
noncomputable def searchStep (choose : GoGame → Nat) (t : MNode) : MNode :=
  let p := (selectAux (sizeOf t) t).1
  match getAt p t with
  | none => t
  | some u =>
    if isTerminalState u.state then
      let r := random_policy choose u.state
      backprop r.1 p (setStateAt r.2 p t)
    else
      match untriedMove u with
      | some m =>
        let t1 := expandAt p t
        let p' := p ++ [u.children.length]
        let r := random_policy choose ((deepcopy u.state).play m)
        backprop r.1 p' (setStateAt r.2 p' t1)
      | none =>
        let r := random_policy choose u.state
        backprop r.1 p (setStateAt r.2 p t)

/-- The `for _ in range(self.n_simulations)` loop of `MCTS.search`. -/
noncomputable def searchLoop (choose : GoGame → Nat) : Nat → MNode → MNode
  | 0, t => t
  | n + 1, t => searchLoop choose n (searchStep choose t)

/-- `MCTS.search`: build the root, run the simulations, and return
`root.best_child(exploration_weight=0)`. `n` is `n_simulations` as the
integer the constructor was given; `range` of a non-positive integer is
empty, which `Int.toNat` captures. `none` models the unhandled exceptions
of the source (there is no validation anywhere in `search`). -/
noncomputable def search (choose : GoGame → Nat) (n : Int) (s : GoGame) :
    Option MNode :=
  best_child (searchLoop choose n.toNat (rootNode s)) 0

/-- The empty board of `GoGame(board_size=n)`: all zeros, player 1 to move. -/
def goEmpty (n : Nat) : GoGame :=
  { board_size := n, board := List.replicate n (List.replicate n 0), current_player := 1 }

/-- A terminal 1 x 1 position: the single cell is occupied. -/
def goFull1 : GoGame := { board_size := 1, board := [[1]], current_player := 2 }

/-- A concrete rollout oracle: always pick the first legal move. -/
def choose0 : GoGame → Nat := fun _ => 0

/-- C1: the claim says `winCount` is incremented exactly when the outcome's
winner is the opponent of the node's `state.currentPlayer()`, and never
when it equals the node's own current player. The source (line 82) does
the opposite: at a root whose state has `current_player = 1`,
backpropagating the outcome 1 (the node's own player) increments `wins`,
and backpropagating the outcome 2 (the opponent) leaves `wins` at 0. -/
theorem backprop_attribution_inverted_c1 :
    (backprop 1 [] (rootNode (goEmpty 1))).wins = 1 ∧
    (backprop 2 [] (rootNode (goEmpty 1))).wins = 0 := by
  exact ⟨rfl, rfl⟩

/-- C2: the claim says expansion never creates two children from the same
move and that a fully expanded node's children are in one-to-one
correspondence with its distinct legal moves. On the empty 2 x 2 board
(legal moves `(0,0), (0,1), (1,0), (1,1)`), four successive expansions of
the root each re-play the first legal move `(0, 0)`, because line 71
compares moves against child `state` objects (never equal): all four
children carry the same state `play (0, 0)`, and the node then counts as
fully expanded even though three legal moves have no child. -/
theorem expand_duplicate_children_c2 :
    (expand (expand (expand (expand (rootNode (goEmpty 2)))))).children.map
        (fun c => c.state) =
      List.replicate 4 ((goEmpty 2).play (0, 0)) ∧
    isFullyExpanded (expand (expand (expand (expand (rootNode (goEmpty 2)))))) = true := by
  constructor
  · decide
  · decide

/-- C3: the claim says a simulation leaves the tree node's state snapshot
unchanged. In the source, `random_policy` is handed `node.state` itself
and calls `state.play(move)` on it, so the rollout's moves are written
into the node. Concretely: in the first search iteration on the empty
2 x 2 board, expansion creates the child with state `play (0, 0)` (board
`[[1, 0], [0, 0]]`), but after the iteration the child node holds the
rollout's final board `[[1, 2], [1, 2]]`. -/
theorem simulation_mutates_node_state_c3 :
    ((goEmpty 2).play (0, 0)).board = [[1, 0], [0, 0]] ∧
    (getAt [0] (searchStep choose0 (rootNode (goEmpty 2)))).map
        (fun u => u.state.board) = some [[1, 2], [1, 2]] := by
  constructor
  · decide
  · decide

theorem selectAux_stop (fuel : Nat) (t : MNode)
    (h : (!isTerminalState t.state && isFullyExpanded t) = false) :
    selectAux fuel t = ([], []) := by
  cases fuel with
  | zero => rfl
  | succ n =>
    simp only [selectAux]
    rw [h]
    simp

theorem legal_nil_of_terminal {s : GoGame} (h : isTerminalState s = true) :
    s.get_legal_moves = [] := by
  simpa [isTerminalState, List.isEmpty_iff] using h

theorem searchStep_terminal_nilChildren (choose : GoGame → Nat) (s : GoGame)
    (w v : Nat) (h : isTerminalState s = true) :
    searchStep choose (MNode.mk s w v []) =
      MNode.mk s (if s.current_player = getResultState s then w + 1 else w)
        (v + 1) [] := by
  have hl := legal_nil_of_terminal h
  have hstop : (!isTerminalState (MNode.mk s w v []).state &&
      isFullyExpanded (MNode.mk s w v [])) = false := by simp [h]
  simp [searchStep, selectAux_stop _ _ hstop, getAt, h, random_policy, hl,
    rolloutAux, setStateAt, backprop]

/-- C4: the claim says `search` on an already-terminal initial state fails
with `InvalidStartState` instead of running simulations. The source has no
such validation: on a terminal start state every one of the `n` iterations
runs (selection returns the terminal root, expansion is skipped, the
rollout returns immediately and backpropagation bumps the root), the root
never acquires a child, and the final `root.best_child(0)` evaluates
`np.argmax` of an empty list, an unhandled `ValueError` modelled as
`none`. -/
theorem search_terminal_crashes_c4 (s : GoGame) (h : isTerminalState s = true)
    (choose : GoGame → Nat) (n : Int) : search choose n s = none := by
  suffices H : ∀ m w v, ∃ w' v',
      searchLoop choose m (MNode.mk s w v []) = MNode.mk s w' v' [] by
    obtain ⟨w', v', hw⟩ := H n.toNat 0 0
    simp [search, rootNode, hw, best_child]
  intro m
  induction m with
  | zero => exact fun w v => ⟨w, v, rfl⟩
  | succ k ih =>
    intro w v
    simp only [searchLoop]
    rw [searchStep_terminal_nilChildren choose s w v h]
    exact ih _ _

theorem search_terminal_crashes_c4_witness :
    isTerminalState goFull1 = true ∧ search choose0 3 goFull1 = none :=
  ⟨by decide, search_terminal_crashes_c4 goFull1 (by decide) choose0 3⟩

/-- C5: the claim says `search` with `nSimulations ≤ 0` fails with
`InvalidConfiguration`. The source validates nothing: `range(n)` of a
non-positive `n` is empty, so the loop body never runs, the root has no
children, and `root.best_child(0)` evaluates `np.argmax` of an empty
list, an unhandled `ValueError` modelled as `none`. -/
theorem search_nonpositive_sims_crashes_c5 (choose : GoGame → Nat)
    (s : GoGame) (n : Int) (h : n ≤ 0) : search choose n s = none := by
  have h0 : n.toNat = 0 := Int.toNat_of_nonpos h
  simp [search, h0, searchLoop, rootNode, best_child]

theorem search_nonpositive_sims_crashes_c5_witness :
    (0 : Int) ≤ 0 ∧ search choose0 0 (goEmpty 2) = none :=
  ⟨le_refl 0, search_nonpositive_sims_crashes_c5 choose0 (goEmpty 2) 0 (le_refl 0)⟩

/-- Parameter count, besides `self`, of `GoGame.is_terminal(self, state)`
in the source (line 106). -/
def goIsTerminalParams : Nat := 1

/-- Parameter count, besides `self`, of `GoGame.get_result(self, state)`
in the source (line 109). -/
def goGetResultParams : Nat := 1

/-- Argument count of the bound-method call `state.is_terminal()` in
`random_policy` (line 41). -/
def rolloutIsTerminalArgs : Nat := 0

/-- Argument count of the bound-method call `state.get_result()` in
`random_policy` (line 45). -/
def rolloutGetResultArgs : Nat := 0

/-- A Python bound-method call: it produces a value only when the number
of supplied arguments matches the method's parameter count; on a mismatch
Python raises `TypeError`, modelled as `none`. -/
def pyCall {α : Type} (paramCount argCount : Nat) (f : Unit → α) : Option α :=
  if paramCount = argCount then some (f ()) else none

/-- `random_policy` as it executes on the bundled `GoGame`: the state
methods it invokes with zero arguments are `GoGame` methods requiring one
positional argument, so each call goes through `pyCall` with the arities
read off the source. -/
def random_policy_go (choose : GoGame → Nat) : Nat → GoGame → Option (Int × GoGame)
  | 0, _ => none
  | fuel + 1, s =>
    match pyCall goIsTerminalParams rolloutIsTerminalArgs
        (fun _ => isTerminalState s) with
    | none => none
    | some true =>
      (pyCall goGetResultParams rolloutGetResultArgs
        (fun _ => getResultState s)).map fun r => (r, s)
    | some false =>
      let legal := s.get_legal_moves
      random_policy_go choose fuel
        (s.play (legal.getD (choose s % legal.length) (0, 0)))

/-- C10: the rollout invokes `state.is_terminal()` and `state.get_result()`
with zero arguments while `GoGame` defines both to take an explicit state
parameter, so for every `GoGame` state the very first step of the rollout
raises a `TypeError` and no simulation on the bundled game ever produces
an `Outcome`. -/
theorem rollout_arity_error_c10 (choose : GoGame → Nat) (fuel : Nat)
    (s : GoGame) : random_policy_go choose fuel s = none := by
  cases fuel with
  | zero => rfl
  | succ k =>
    simp [random_policy_go, pyCall, goIsTerminalParams, rolloutIsTerminalArgs]

theorem getD_indep {α : Type} (l : List α) (n : Nat) (d d' : α)
    (h : n < l.length) : l.getD n d = l.getD n d' := by
  rw [List.getD_eq_getElem l d h, List.getD_eq_getElem l d' h]

theorem argmaxIdx_lt_length {α : Type} [LinearOrder α] :
    ∀ (l : List α), l ≠ [] → argmaxIdx l < l.length
  | [], h => absurd rfl h
  | [x], _ => by simp [argmaxIdx]
  | x :: y :: xs, _ => by
    have ih := argmaxIdx_lt_length (y :: xs) (by simp)
    simp only [List.length_cons] at ih
    by_cases hc : x < (y :: xs).getD (argmaxIdx (y :: xs)) x
    · simp only [argmaxIdx, if_pos hc, List.length_cons]
      omega
    · simp only [argmaxIdx, if_neg hc, List.length_cons]
      omega

theorem argmaxIdx_le {α : Type} [LinearOrder α] (d : α) :
    ∀ (l : List α) (j : Nat), j < l.length →
      l.getD j d ≤ l.getD (argmaxIdx l) d
  | [], j, hj => by simp at hj
  | [x], j, hj => by
    have hj0 : j = 0 := by simpa using Nat.lt_one_iff.mp (by simpa using hj)
    simp [argmaxIdx, hj0]
  | x :: y :: xs, j, hj => by
    have hlt := argmaxIdx_lt_length (y :: xs) (by simp)
    have hind := getD_indep (y :: xs) (argmaxIdx (y :: xs)) x d hlt
    by_cases hc : x < (y :: xs).getD (argmaxIdx (y :: xs)) x
    · simp only [argmaxIdx, if_pos hc]
      rw [List.getD_cons_succ]
      match j with
      | 0 =>
        rw [List.getD_cons_zero]
        exact le_of_lt (lt_of_lt_of_eq hc hind)
      | k + 1 =>
        rw [List.getD_cons_succ]
        exact argmaxIdx_le d (y :: xs) k (by simpa using hj)
    · simp only [argmaxIdx, if_neg hc]
      rw [List.getD_cons_zero]
      match j with
      | 0 => rw [List.getD_cons_zero]
      | k + 1 =>
        rw [List.getD_cons_succ]
        calc (y :: xs).getD k d ≤ (y :: xs).getD (argmaxIdx (y :: xs)) d :=
              argmaxIdx_le d (y :: xs) k (by simpa using hj)
          _ = (y :: xs).getD (argmaxIdx (y :: xs)) x := hind.symm
          _ ≤ x := not_lt.mp hc

theorem argmaxIdx_first {α : Type} [LinearOrder α] (d : α) :
    ∀ (l : List α) (j : Nat), j < argmaxIdx l →
      l.getD j d < l.getD (argmaxIdx l) d
  | [], j, hj => by simp [argmaxIdx] at hj
  | [x], j, hj => by simp [argmaxIdx] at hj
  | x :: y :: xs, j, hj => by
    have hlt := argmaxIdx_lt_length (y :: xs) (by simp)
    have hind := getD_indep (y :: xs) (argmaxIdx (y :: xs)) x d hlt
    by_cases hc : x < (y :: xs).getD (argmaxIdx (y :: xs)) x
    · simp only [argmaxIdx, if_pos hc] at hj ⊢
      rw [List.getD_cons_succ]
      match j, hj with
      | 0, _ =>
        rw [List.getD_cons_zero]
        exact lt_of_lt_of_eq hc hind
      | k + 1, hj =>
        rw [List.getD_cons_succ]
        exact argmaxIdx_first d (y :: xs) k (by omega)
    · exfalso
      have h0 : argmaxIdx (x :: y :: xs) = 0 := by
        simp only [argmaxIdx, if_neg hc]
      rw [h0] at hj
      exact Nat.not_lt_zero j hj

/-- C6: the selection score of a child `c` of a node with visited children
is `(c.winCount / c.visitCount) + explorationWeight *
sqrt(ln(parent.visitCount) / c.visitCount)` (the source `ucb1` coincides
with the formula as the specification words it), and `best_child` returns
the child at the `np.argmax` index: a maximal score, with every strictly
earlier index scoring strictly less (first-encountered tie-breaking). -/
theorem ucb1_formula_and_best_child_c6 (t : MNode) (w : ℝ)
    (hne : t.children ≠ []) (hvis : ∀ c ∈ t.children, 0 < c.visits) :
    (∀ c ∈ t.children, ucb1 t.visits c w = specScore t.visits c w) ∧
    bestChildIdx t w < t.children.length ∧
    best_child t w = t.children[bestChildIdx t w]? ∧
    (∀ j, j < t.children.length →
      (childScores t w).getD j 0 ≤
        (childScores t w).getD (bestChildIdx t w) 0) ∧
    (∀ j, j < bestChildIdx t w →
      (childScores t w).getD j 0 <
        (childScores t w).getD (bestChildIdx t w) 0) := by
  have hlen : (childScores t w).length = t.children.length := by
    simp [childScores]
  have hscne : childScores t w ≠ [] := by
    simp [childScores, hne]
  refine ⟨fun c _ => rfl, ?_, ?_, ?_, ?_⟩
  · have h := argmaxIdx_lt_length (childScores t w) hscne
    rw [hlen] at h
    exact h
  · have hemp : t.children.isEmpty = false := by
      simp [List.isEmpty_iff, hne]
    simp [best_child, hemp]
  · intro j hj
    exact argmaxIdx_le 0 (childScores t w) j (by rw [hlen]; exact hj)
  · intro j hj
    exact argmaxIdx_first 0 (childScores t w) j hj

/-- A concrete parent with one visited child, for the C6 witness. -/
def wChild : MNode := MNode.mk ((goEmpty 1).play (0, 0)) 0 2 []

/-- A concrete parent node, for the C6 witness. -/
def wParent : MNode := MNode.mk (goEmpty 1) 1 2 [wChild]

theorem ucb1_formula_and_best_child_c6_witness :
    wParent.children ≠ [] ∧ (∀ c ∈ wParent.children, 0 < c.visits) ∧
    (∀ c ∈ wParent.children,
      ucb1 wParent.visits c 0 = specScore wParent.visits c 0) ∧
    bestChildIdx wParent 0 < wParent.children.length ∧
    best_child wParent 0 = wParent.children[bestChildIdx wParent 0]? ∧
    (∀ j, j < wParent.children.length →
      (childScores wParent 0).getD j 0 ≤
        (childScores wParent 0).getD (bestChildIdx wParent 0) 0) ∧
    (∀ j, j < bestChildIdx wParent 0 →
      (childScores wParent 0).getD j 0 <
        (childScores wParent 0).getD (bestChildIdx wParent 0) 0) := by
  have h1 : wParent.children ≠ [] := by simp [wParent]
  have h2 : ∀ c ∈ wParent.children, 0 < c.visits := by
    intro c hc
    simp only [wParent, MNode.children, List.mem_singleton] at hc
    rw [hc]
    simp [wChild]
  have h := ucb1_formula_and_best_child_c6 wParent 0 h1 h2
  exact ⟨h1, h2, h.1, h.2.1, h.2.2.1, h.2.2.2.1, h.2.2.2.2⟩

theorem visits_backprop (res : Int) (p : List Nat) (t : MNode) :
    (backprop res p t).visits = t.visits + 1 := by
  cases p <;> cases t <;> rfl

theorem visits_setStateAt (s' : GoGame) (p : List Nat) (t : MNode) :
    (setStateAt s' p t).visits = t.visits := by
  cases p <;> cases t <;> rfl

theorem visits_expand (t : MNode) : (expand t).visits = t.visits := by
  unfold expand
  cases h : untriedMove t <;> simp

theorem visits_expandAt (p : List Nat) (t : MNode) :
    (expandAt p t).visits = t.visits := by
  cases p with
  | nil => exact visits_expand t
  | cons i q => cases t; rfl

theorem getAt_selectAux (fuel : Nat) :
    ∀ t : MNode, ∃ u, getAt (selectAux fuel t).1 t = some u := by
  induction fuel with
  | zero => exact fun t => ⟨t, rfl⟩
  | succ n ih =>
    intro t
    by_cases hc : (!isTerminalState t.state && isFullyExpanded t) = true
    · simp only [selectAux, if_pos hc]
      cases hg : t.children[bestChildIdx t explorationDefault]? with
      | some c =>
        obtain ⟨u, hu⟩ := ih c
        exact ⟨u, by simp [getAt, hg, hu]⟩
      | none => exact ⟨t, rfl⟩
    · rw [selectAux_stop _ _ (Bool.not_eq_true _ ▸ (by simpa using hc))]
      exact ⟨t, rfl⟩

theorem searchStep_visits (choose : GoGame → Nat) (t : MNode) :
    (searchStep choose t).visits = t.visits + 1 := by
  obtain ⟨u, hu⟩ := getAt_selectAux (sizeOf t) t
  simp only [searchStep, hu]
  by_cases ht : isTerminalState u.state
  · simp [ht, visits_backprop, visits_setStateAt]
  · cases hm : untriedMove u with
    | some m =>
      simp [ht, hm, visits_backprop, visits_setStateAt, visits_expandAt]
    | none => simp [ht, hm, visits_backprop, visits_setStateAt]

theorem searchLoop_visits (choose : GoGame → Nat) :
    ∀ (n : Nat) (t : MNode), (searchLoop choose n t).visits = t.visits + n := by
  intro n
  induction n with
  | zero => exact fun t => rfl
  | succ k ih =>
    intro t
    simp only [searchLoop]
    rw [ih (searchStep choose t), searchStep_visits]
    omega

/-- C7: after a search with a non-terminal initial state and positive
`nSimulations`, the root's `visitCount` equals `nSimulations`: every
iteration of the loop backpropagates along a path starting at the root and
therefore increments the root's visits exactly once. -/
theorem root_visits_eq_n_c7 (choose : GoGame → Nat) (s : GoGame) (n : Nat)
    (h1 : isTerminalState s = false) (h2 : 0 < n) :
    (searchLoop choose n (rootNode s)).visits = n := by
  rw [searchLoop_visits]
  simp [rootNode]

theorem root_visits_eq_n_c7_witness :
    isTerminalState (goEmpty 1) = false ∧ 0 < 2 ∧
    (searchLoop choose0 2 (rootNode (goEmpty 1))).visits = 2 :=
  ⟨by decide, by decide,
    root_visits_eq_n_c7 choose0 (goEmpty 1) 2 (by decide) (by decide)⟩

/-- Sum of the children's visit counts of a node. -/
def childVisitSum (t : MNode) : Nat := (t.children.map MNode.visits).sum

@[simp] theorem childVisitSum_mk (s : GoGame) (w v : Nat) (cs : List MNode) :
    childVisitSum (MNode.mk s w v cs) = (cs.map MNode.visits).sum := rfl

@[simp] theorem getAt_nil (t : MNode) : getAt [] t = some t := rfl

theorem getAt_cons_eq_bind (i : Nat) (p : List Nat) (t : MNode) :
    getAt (i :: p) t = (t.children[i]?).bind (getAt p) := by
  cases h : t.children[i]? <;> simp [getAt, h]

/-- The path `p` is an initial segment of the path `q`. -/
def initSeg : List Nat → List Nat → Prop
  | [], _ => True
  | _ :: _, [] => False
  | i :: p, j :: q => i = j ∧ initSeg p q

@[simp] theorem initSeg_nil (q : List Nat) : initSeg [] q := trivial

@[simp] theorem initSeg_cons_nil (i : Nat) (p : List Nat) :
    ¬initSeg (i :: p) [] := fun h => h

@[simp] theorem initSeg_cons_cons (i j : Nat) (p q : List Nat) :
    initSeg (i :: p) (j :: q) ↔ i = j ∧ initSeg p q := Iff.rfl

theorem initSeg_refl : ∀ p : List Nat, initSeg p p
  | [] => trivial
  | _ :: p => ⟨rfl, initSeg_refl p⟩

theorem modifyAt_oob (f : MNode → MNode) :
    ∀ (cs : List MNode) (j : Nat), cs.length ≤ j → modifyAt f cs j = cs
  | [], _, _ => rfl
  | c :: cs, 0, h => by simp at h
  | c :: cs, j + 1, h => by
    simp [modifyAt, modifyAt_oob f cs j (by simpa using h)]

theorem length_modifyAt (f : MNode → MNode) :
    ∀ (cs : List MNode) (j : Nat), (modifyAt f cs j).length = cs.length
  | [], _ => rfl
  | c :: cs, 0 => rfl
  | c :: cs, j + 1 => by simp [modifyAt, length_modifyAt f cs j]

theorem map_modifyAt_pres (f : MNode → MNode) (g : MNode → Nat)
    (hf : ∀ x, g (f x) = g x) :
    ∀ (cs : List MNode) (j : Nat), (modifyAt f cs j).map g = cs.map g
  | [], _ => rfl
  | c :: cs, 0 => by simp [modifyAt, hf]
  | c :: cs, j + 1 => by simp [modifyAt, map_modifyAt_pres f g hf cs j]

theorem sum_map_modifyAt_bump (f : MNode → MNode) (g : MNode → Nat)
    (hf : ∀ x, g (f x) = g x + 1) :
    ∀ (cs : List MNode) (j : Nat), j < cs.length →
      ((modifyAt f cs j).map g).sum = (cs.map g).sum + 1
  | [], j, h => by simp at h
  | c :: cs, 0, _ => by simp [modifyAt, hf]; omega
  | c :: cs, j + 1, h => by
    have ih := sum_map_modifyAt_bump f g hf cs j (by simpa using h)
    simp [modifyAt, ih]
    omega

theorem sum_map_modifyAt_le (f : MNode → MNode) (g : MNode → Nat)
    (hf : ∀ x, g (f x) = g x + 1) (cs : List MNode) (j : Nat) :
    ((modifyAt f cs j).map g).sum ≤ (cs.map g).sum + 1 := by
  by_cases h : j < cs.length
  · rw [sum_map_modifyAt_bump f g hf cs j h]
  · rw [modifyAt_oob f cs j (Nat.le_of_not_lt h)]
    omega

theorem getAt_backprop (res : Int) :
    ∀ (q p : List Nat) (t u : MNode), getAt p (backprop res q t) = some u →
      ∃ u₀, getAt p t = some u₀ ∧
        ((u.visits = u₀.visits + 1 ∧ childVisitSum u ≤ childVisitSum u₀ + 1) ∨
         (u.visits = u₀.visits ∧ childVisitSum u = childVisitSum u₀)) ∧
        (initSeg p q → u.visits = u₀.visits + 1)
  | [], p, MNode.mk s w v cs, u => by
    intro hget
    cases p with
    | nil =>
      rw [getAt_nil] at hget
      obtain rfl := Option.some.inj hget
      refine ⟨MNode.mk s w v cs, rfl, Or.inl ⟨by simp [backprop], ?_⟩,
        fun _ => by simp [backprop]⟩
      simp [backprop]
    | cons i p' =>
      simp only [getAt_cons_eq_bind, backprop, MNode.children_mk] at hget ⊢
      exact ⟨u, hget, Or.inr ⟨rfl, rfl⟩, fun hseg => absurd hseg (by simp)⟩
  | j :: q', p, MNode.mk s w v cs, u => by
    intro hget
    cases p with
    | nil =>
      rw [getAt_nil] at hget
      obtain rfl := Option.some.inj hget
      refine ⟨MNode.mk s w v cs, rfl, Or.inl ⟨by simp [backprop], ?_⟩,
        fun _ => by simp [backprop]⟩
      simp only [backprop, childVisitSum_mk, MNode.children_mk]
      exact sum_map_modifyAt_le _ _ (fun x => visits_backprop res q' x) cs j
    | cons i p' =>
      simp only [getAt_cons_eq_bind, backprop, MNode.children_mk] at hget
      rcases eq_or_ne j i with rfl | hne
      · rw [getElem?_modifyAt_self] at hget
        cases hc : cs[j]? with
        | none => rw [hc] at hget; simp at hget
        | some c =>
          rw [hc] at hget
          simp only [Option.map_some', Option.some_bind] at hget
          obtain ⟨u₀, h1, h2, h3⟩ := getAt_backprop res q' p' c u hget
          refine ⟨u₀, ?_, h2, fun hseg => h3 hseg.2⟩
          simp [getAt_cons_eq_bind, hc, h1]
      · rw [getElem?_modifyAt_ne _ _ _ _ hne] at hget
        refine ⟨u, ?_, Or.inr ⟨rfl, rfl⟩, fun hseg => absurd hseg.1.symm hne⟩
        simp [getAt_cons_eq_bind, hget]

theorem getAt_setStateAt (s' : GoGame) :
    ∀ (q p : List Nat) (t u : MNode), getAt p (setStateAt s' q t) = some u →
      ∃ u₀, getAt p t = some u₀ ∧ u.visits = u₀.visits ∧
        u.children.map MNode.visits = u₀.children.map MNode.visits
  | [], p, MNode.mk s w v cs, u => by
    intro hget
    cases p with
    | nil =>
      rw [getAt_nil] at hget
      obtain rfl := Option.some.inj hget
      exact ⟨MNode.mk s w v cs, rfl, by simp [setStateAt], by simp [setStateAt]⟩
    | cons i p' =>
      simp only [getAt_cons_eq_bind, setStateAt, MNode.children_mk] at hget ⊢
      exact ⟨u, hget, rfl, rfl⟩
  | j :: q', p, MNode.mk s w v cs, u => by
    intro hget
    cases p with
    | nil =>
      rw [getAt_nil] at hget
      obtain rfl := Option.some.inj hget
      refine ⟨MNode.mk s w v cs, rfl, by simp [setStateAt], ?_⟩
      simp only [setStateAt, MNode.children_mk]
      exact map_modifyAt_pres _ _ (fun x => visits_setStateAt s' q' x) cs j
    | cons i p' =>
      simp only [getAt_cons_eq_bind, setStateAt, MNode.children_mk] at hget
      rcases eq_or_ne j i with rfl | hne
      · rw [getElem?_modifyAt_self] at hget
        cases hc : cs[j]? with
        | none => rw [hc] at hget; simp at hget
        | some c =>
          rw [hc] at hget
          simp only [Option.map_some', Option.some_bind] at hget
          obtain ⟨u₀, h1, h2, h3⟩ := getAt_setStateAt s' q' p' c u hget
          exact ⟨u₀, by simp [getAt_cons_eq_bind, hc, h1], h2, h3⟩
      · rw [getElem?_modifyAt_ne _ _ _ _ hne] at hget
        exact ⟨u, by simp [getAt_cons_eq_bind, hget], rfl, rfl⟩

theorem untriedMove_eq_head (t : MNode) :
    untriedMove t = t.state.get_legal_moves.head? := by
  unfold untriedMove
  cases h : t.state.get_legal_moves with
  | nil => rfl
  | cons m ms => simp [List.find?_cons, pyEqMoveState]

theorem legal_nil_of_untried_none {u : MNode} (h : untriedMove u = none) :
    u.state.get_legal_moves = [] := by
  rw [untriedMove_eq_head] at h
  exact List.head?_eq_none_iff.mp h

theorem getAt_expandAt :
    ∀ (pe p : List Nat) (t u : MNode), getAt p (expandAt pe t) = some u →
      (∃ u₀, getAt p t = some u₀ ∧ u.visits = u₀.visits ∧
        (u.children.map MNode.visits = u₀.children.map MNode.visits ∨
         u.children.map MNode.visits = u₀.children.map MNode.visits ++ [0])) ∨
      (∃ u₀, getAt pe t = some u₀ ∧ p = pe ++ [u₀.children.length] ∧
        u.visits = 0 ∧ u.children = [])
  | [], p, t, u => by
    intro hget
    rw [show expandAt [] t = expand t from rfl] at hget
    cases hm : untriedMove t with
    | none =>
      unfold expand at hget
      rw [hm] at hget
      exact Or.inl ⟨u, hget, rfl, Or.inl rfl⟩
    | some m =>
      obtain ⟨s, w, v, cs⟩ := t
      unfold expand at hget
      rw [hm] at hget
      simp only [MNode.state_mk, MNode.wins_mk, MNode.visits_mk,
        MNode.children_mk] at hget
      cases p with
      | nil =>
        rw [getAt_nil] at hget
        obtain rfl := Option.some.inj hget
        refine Or.inl ⟨MNode.mk s w v cs, rfl, by simp, Or.inr ?_⟩
        simp
      | cons i p' =>
        simp only [getAt_cons_eq_bind, MNode.children_mk] at hget
        rcases Nat.lt_trichotomy i cs.length with hlt | heq | hgt
        · rw [List.getElem?_append_left hlt] at hget
          refine Or.inl ⟨u, ?_, rfl, Or.inl rfl⟩
          rw [getAt_cons_eq_bind, MNode.children_mk]
          exact hget
        · rw [List.getElem?_append_right (le_of_eq heq.symm)] at hget
          rw [heq] at hget
          simp only [Nat.sub_self, List.getElem?_cons_zero,
            Option.some_bind] at hget
          cases p' with
          | nil =>
            rw [getAt_nil] at hget
            obtain rfl := Option.some.inj hget
            refine Or.inr ⟨MNode.mk s w v cs, rfl, by simp [heq], by simp, by simp⟩
          | cons k p'' =>
            rw [getAt_cons_eq_bind] at hget
            simp at hget
        · rw [List.getElem?_append_right (by omega)] at hget
          have h1 : 1 ≤ i - cs.length := by omega
          obtain ⟨d, hd⟩ : ∃ d, i - cs.length = d + 1 := ⟨i - cs.length - 1, by omega⟩
          rw [hd] at hget
          simp at hget
  | j :: pe', p, MNode.mk s w v cs, u => by
    intro hget
    cases p with
    | nil =>
      rw [getAt_nil] at hget
      obtain rfl := Option.some.inj hget
      refine Or.inl ⟨MNode.mk s w v cs, rfl, by simp [expandAt], Or.inl ?_⟩
      simp only [expandAt, MNode.children_mk]
      exact map_modifyAt_pres _ _ (fun x => visits_expandAt pe' x) cs j
    | cons i p' =>
      simp only [getAt_cons_eq_bind, expandAt, MNode.children_mk] at hget
      rcases eq_or_ne j i with rfl | hne
      · rw [getElem?_modifyAt_self] at hget
        cases hc : cs[j]? with
        | none => rw [hc] at hget; simp at hget
        | some c =>
          rw [hc] at hget
          simp only [Option.map_some', Option.some_bind] at hget
          rcases getAt_expandAt pe' p' c u hget with
            ⟨u₀, h1, h2, h3⟩ | ⟨u₀, h1, h2, h3, h4⟩
          · exact Or.inl ⟨u₀, by simp [getAt_cons_eq_bind, hc, h1], h2, h3⟩
          · refine Or.inr ⟨u₀, by simp [getAt_cons_eq_bind, hc, h1], ?_, h3, h4⟩
            rw [h2]
            rfl
      · rw [getElem?_modifyAt_ne _ _ _ _ hne] at hget
        refine Or.inl ⟨u, ?_, rfl, Or.inl rfl⟩
        rw [getAt_cons_eq_bind, MNode.children_mk]
        exact hget

/-- Every non-root node of the tree has a positive visit count. -/
def NonRootVisitsPos (t : MNode) : Prop :=
  ∀ p u, getAt p t = some u → p ≠ [] → 1 ≤ u.visits

theorem rootNode_nonRootVisitsPos (s : GoGame) :
    NonRootVisitsPos (rootNode s) := by
  intro p u hget hp
  cases p with
  | nil => exact absurd rfl hp
  | cons i q =>
    rw [getAt_cons_eq_bind] at hget
    simp [rootNode] at hget

theorem nonRoot_backprop_set (res : Int) (s2 : GoGame) (q : List Nat)
    (t : MNode) (h : NonRootVisitsPos t) :
    NonRootVisitsPos (backprop res q (setStateAt s2 q t)) := by
  intro p u hget hp
  obtain ⟨u₁, h1, hdisj, _⟩ := getAt_backprop res q p _ u hget
  rcases hdisj with ⟨hv, _⟩ | ⟨hv, _⟩
  · omega
  · obtain ⟨u₂, h2, hv2, _⟩ := getAt_setStateAt s2 q p t u₁ h1
    have := h p u₂ h2 hp
    omega

theorem nonRoot_backprop_set_expand (res : Int) (s2 : GoGame)
    (psel : List Nat) (t usel : MNode) (h : NonRootVisitsPos t)
    (hu : getAt psel t = some usel) :
    NonRootVisitsPos
      (backprop res (psel ++ [usel.children.length])
        (setStateAt s2 (psel ++ [usel.children.length]) (expandAt psel t))) := by
  intro p u hget hp
  obtain ⟨u₁, h1, hdisj, hseg⟩ := getAt_backprop _ _ p _ u hget
  obtain ⟨u₂, h2, hv2, _⟩ := getAt_setStateAt _ _ p _ u₁ h1
  rcases getAt_expandAt psel p t u₂ h2 with ⟨u₃, h3, hv3, _⟩ | ⟨u₃, h3, hpeq, hv0, _⟩
  · rcases hdisj with ⟨hv, _⟩ | ⟨hv, _⟩
    · omega
    · have := h p u₃ h3 hp
      omega
  · rw [hu] at h3
    obtain rfl := Option.some.inj h3
    have hv1 : u.visits = u₁.visits + 1 := by
      apply hseg
      rw [hpeq]
      exact initSeg_refl _
    omega

theorem searchStep_nonRootVisitsPos (choose : GoGame → Nat) (t : MNode)
    (h : NonRootVisitsPos t) : NonRootVisitsPos (searchStep choose t) := by
  obtain ⟨usel, hu⟩ := getAt_selectAux (sizeOf t) t
  simp only [searchStep, hu]
  by_cases ht : isTerminalState usel.state = true
  · simp only [ht, if_true]
    exact nonRoot_backprop_set _ _ _ t h
  · simp only [ht, if_false]
    cases hm : untriedMove usel with
    | some m =>
      simp only [hm]
      exact nonRoot_backprop_set_expand _ _ _ t usel h hu
    | none =>
      simp only [hm]
      exact nonRoot_backprop_set _ _ _ t h

theorem searchLoop_nonRootVisitsPos (choose : GoGame → Nat) :
    ∀ (n : Nat) (t : MNode), NonRootVisitsPos t →
      NonRootVisitsPos (searchLoop choose n t)
  | 0, _, h => h
  | n + 1, t, h =>
    searchLoop_nonRootVisitsPos choose n _ (searchStep_nonRootVisitsPos choose t h)

theorem children_visits_pos (t : MNode) (h : NonRootVisitsPos t) :
    ∀ v ∈ t.children.map MNode.visits, 1 ≤ v := by
  intro v hv
  obtain ⟨c, hcmem, rfl⟩ := List.mem_map.mp hv
  obtain ⟨i, hi⟩ := List.getElem?_of_mem hcmem
  exact h [i] c (by rw [getAt_cons_eq_bind, hi]; rfl) (by simp)

theorem selectAux_scored_pos :
    ∀ (fuel : Nat) (t : MNode), NonRootVisitsPos t →
      ∀ v ∈ (selectAux fuel t).2, 1 ≤ v
  | 0, t, _ => by simp [selectAux]
  | fuel + 1, t, h => by
    by_cases hc : (!isTerminalState t.state && isFullyExpanded t) = true
    · simp only [selectAux, if_pos hc]
      cases hg : t.children[bestChildIdx t explorationDefault]? with
      | some c =>
        simp only [hg]
        intro v hv
        rcases List.mem_append.mp hv with hv1 | hv2
        · exact children_visits_pos t h v hv1
        · have hcP : NonRootVisitsPos c := by
            intro p u hget hp
            refine h (bestChildIdx t explorationDefault :: p) u ?_ (by simp)
            rw [getAt_cons_eq_bind, hg]
            simpa using hget
          exact selectAux_scored_pos fuel c hcP v hv2
      | none =>
        simp only [hg]
        exact children_visits_pos t h
    · have hc' : (!isTerminalState t.state && isFullyExpanded t) = false := by
        simpa using hc
      rw [selectAux_stop (fuel + 1) t hc']
      simp

/-- C8: at every point during a search (any number `k` of completed
iterations from any start state), the `ucb1` formula is only applied to
children whose `visitCount` is at least one: every visit count recorded by
the instrumented selection descent is positive, and so is the visit count
of every root child (the children scored by the final exploitation pick).
This holds because expansion is preferred over selection at nodes that are
not fully expanded and each newly created child is backpropagated through
(its visit count becomes one) before any later selection can score it. -/
theorem never_score_unvisited_c8 (choose : GoGame → Nat) (s : GoGame)
    (k fuel : Nat) :
    (∀ v ∈ (selectAux fuel (searchLoop choose k (rootNode s))).2, 1 ≤ v) ∧
    (∀ (i : Nat) (c : MNode),
      (searchLoop choose k (rootNode s)).children[i]? = some c →
        1 ≤ c.visits) := by
  have hinv := searchLoop_nonRootVisitsPos choose k (rootNode s)
    (rootNode_nonRootVisitsPos s)
  refine ⟨fun v hv => selectAux_scored_pos fuel _ hinv v hv, ?_⟩
  intro i c hc
  exact hinv [i] c (by rw [getAt_cons_eq_bind, hc]; rfl) (by simp)

/-- The single child of the root after two iterations of the one-cell
game, used by the C8 and C9 witnesses. -/
def wNode8 : MNode := MNode.mk goFull1 0 2 []

theorem never_score_unvisited_c8_witness :
    2 ∈ (selectAux 1 (searchLoop choose0 2 (rootNode (goEmpty 1)))).2 ∧
    (searchLoop choose0 2 (rootNode (goEmpty 1))).children[0]? = some wNode8 ∧
    1 ≤ (2 : Nat) ∧ 1 ≤ wNode8.visits := by
  have hmem : 2 ∈ (selectAux 1 (searchLoop choose0 2 (rootNode (goEmpty 1)))).2 := by
    decide
  have hch : (searchLoop choose0 2 (rootNode (goEmpty 1))).children[0]? =
      some wNode8 := by rfl
  exact ⟨hmem, hch,
    (never_score_unvisited_c8 choose0 (goEmpty 1) 2 1).1 2 hmem,
    (never_score_unvisited_c8 choose0 (goEmpty 1) 2 1).2 0 wNode8 hch⟩

theorem state_backprop (res : Int) (p : List Nat) (t : MNode) :
    (backprop res p t).state = t.state := by
  cases p <;> cases t <;> rfl

theorem state_setStateAt_cons (s' : GoGame) (i : Nat) (p : List Nat)
    (t : MNode) : (setStateAt s' (i :: p) t).state = t.state := by
  cases t; rfl

theorem state_expand (t : MNode) : (expand t).state = t.state := by
  unfold expand
  cases h : untriedMove t <;> simp

theorem state_expandAt_cons (i : Nat) (p : List Nat) (t : MNode) :
    (expandAt (i :: p) t).state = t.state := by
  cases t; rfl

theorem childMap_setStateAt_cons (s' : GoGame) (i : Nat) (p : List Nat)
    (t : MNode) : (setStateAt s' (i :: p) t).children.map MNode.visits =
      t.children.map MNode.visits := by
  cases t with
  | mk s w v cs =>
    simp only [setStateAt, MNode.children_mk]
    exact map_modifyAt_pres _ _ (fun x => visits_setStateAt s' p x) cs i

theorem childMap_expandAt_cons (i : Nat) (p : List Nat) (t : MNode) :
    (expandAt (i :: p) t).children.map MNode.visits =
      t.children.map MNode.visits := by
  cases t with
  | mk s w v cs =>
    simp only [expandAt, MNode.children_mk]
    exact map_modifyAt_pres _ _ (fun x => visits_expandAt p x) cs i

theorem childSum_backprop_cons (res : Int) (i : Nat) (p : List Nat)
    (t : MNode) (hi : i < t.children.length) :
    childVisitSum (backprop res (i :: p) t) = childVisitSum t + 1 := by
  cases t with
  | mk s w v cs =>
    simp only [backprop, childVisitSum_mk, MNode.children_mk]
    exact sum_map_modifyAt_bump _ _ (fun x => visits_backprop res p x) cs i
      (by simpa using hi)

theorem childSum_bp_set (res : Int) (s2 : GoGame) (i : Nat) (rest : List Nat)
    (T : MNode) (hi : i < T.children.length) :
    childVisitSum (backprop res (i :: rest) (setStateAt s2 (i :: rest) T)) =
      childVisitSum T + 1 := by
  have hm := childMap_setStateAt_cons s2 i rest T
  have hlen : (setStateAt s2 (i :: rest) T).children.length =
      T.children.length := by
    have h := congrArg List.length hm
    simpa using h
  rw [childSum_backprop_cons res i rest _ (by rw [hlen]; exact hi)]
  unfold childVisitSum
  rw [hm]

theorem state_bp_set (res : Int) (s2 : GoGame) (i : Nat) (rest : List Nat)
    (T : MNode) :
    (backprop res (i :: rest) (setStateAt s2 (i :: rest) T)).state =
      T.state := by
  rw [state_backprop, state_setStateAt_cons]

theorem selectAux_head_valid (fuel : Nat) (t : MNode) (i : Nat)
    (p' : List Nat) (hp : (selectAux fuel t).1 = i :: p') :
    ∃ c, t.children[i]? = some c ∧ i = bestChildIdx t explorationDefault := by
  cases fuel with
  | zero => simp [selectAux] at hp
  | succ n =>
    by_cases hc : (!isTerminalState t.state && isFullyExpanded t) = true
    · simp only [selectAux, if_pos hc] at hp
      cases hg : t.children[bestChildIdx t explorationDefault]? with
      | some c =>
        simp only [hg] at hp
        obtain ⟨rfl, -⟩ : bestChildIdx t explorationDefault = i ∧ _ :=
          by exact ⟨(List.cons.injEq _ _ _ _ ▸ hp).1, trivial⟩
        exact ⟨c, hg, rfl⟩
      | none =>
        simp only [hg] at hp
        simp at hp
    · rw [selectAux_stop (n + 1) t (by simpa using hc)] at hp
      simp at hp

/-- Every node's child visit counts sum to at most its own visit count. -/
def VisitSumLe (t : MNode) : Prop :=
  ∀ p u, getAt p t = some u → childVisitSum u ≤ u.visits

theorem rootNode_visitSumLe (s : GoGame) : VisitSumLe (rootNode s) := by
  intro p u hget
  cases p with
  | nil =>
    rw [getAt_nil] at hget
    obtain rfl := Option.some.inj hget
    simp [rootNode, childVisitSum]
  | cons i q =>
    rw [getAt_cons_eq_bind] at hget
    simp [rootNode] at hget

theorem visitSumLe_backprop_set (res : Int) (s2 : GoGame) (q : List Nat)
    (t : MNode) (h : VisitSumLe t) :
    VisitSumLe (backprop res q (setStateAt s2 q t)) := by
  intro p u hget
  obtain ⟨u₁, h1, hdisj, -⟩ := getAt_backprop res q p _ u hget
  obtain ⟨u₂, h2, hv2, hcm2⟩ := getAt_setStateAt s2 q p t u₁ h1
  have hs12 : childVisitSum u₁ = childVisitSum u₂ := by
    unfold childVisitSum
    rw [hcm2]
  have hu2 := h p u₂ h2
  rcases hdisj with ⟨hv, hsum⟩ | ⟨hv, hsum⟩ <;> omega

theorem visitSumLe_backprop_set_expand (res : Int) (s2 : GoGame)
    (psel : List Nat) (t usel : MNode) (h : VisitSumLe t)
    (hu : getAt psel t = some usel) :
    VisitSumLe
      (backprop res (psel ++ [usel.children.length])
        (setStateAt s2 (psel ++ [usel.children.length]) (expandAt psel t))) := by
  intro p u hget
  obtain ⟨u₁, h1, hdisj, -⟩ := getAt_backprop _ _ p _ u hget
  obtain ⟨u₂, h2, hv2, hcm2⟩ := getAt_setStateAt _ _ p _ u₁ h1
  have hs12 : childVisitSum u₁ = childVisitSum u₂ := by
    unfold childVisitSum
    rw [hcm2]
  rcases getAt_expandAt psel p t u₂ h2 with
    ⟨u₃, h3, hv3, hcm3⟩ | ⟨u₃, h3, hpeq, hv0, hch0⟩
  · have hs23 : childVisitSum u₂ = childVisitSum u₃ := by
      unfold childVisitSum
      rcases hcm3 with he | he <;> simp [he]
    have hu3 := h p u₃ h3
    rcases hdisj with ⟨hv, hsum⟩ | ⟨hv, hsum⟩ <;> omega
  · have hs2 : childVisitSum u₂ = 0 := by simp [childVisitSum, hch0]
    rcases hdisj with ⟨hv, hsum⟩ | ⟨hv, hsum⟩ <;> omega

theorem searchStep_visitSumLe (choose : GoGame → Nat) (t : MNode)
    (h : VisitSumLe t) : VisitSumLe (searchStep choose t) := by
  obtain ⟨usel, hu⟩ := getAt_selectAux (sizeOf t) t
  simp only [searchStep, hu]
  by_cases ht : isTerminalState usel.state = true
  · simp only [ht, if_true]
    exact visitSumLe_backprop_set _ _ _ t h
  · simp only [ht, if_false]
    cases hm : untriedMove usel with
    | some m =>
      simp only [hm]
      exact visitSumLe_backprop_set_expand _ _ _ t usel h hu
    | none =>
      simp only [hm]
      exact visitSumLe_backprop_set _ _ _ t h

theorem searchLoop_visitSumLe (choose : GoGame → Nat) :
    ∀ (n : Nat) (t : MNode), VisitSumLe t → VisitSumLe (searchLoop choose n t)
  | 0, _, h => h
  | n + 1, t, h =>
    searchLoop_visitSumLe choose n _ (searchStep_visitSumLe choose t h)

theorem legal_cons_of_not_terminal {s : GoGame}
    (hs : isTerminalState s = false) :
    ∃ m ms, s.get_legal_moves = m :: ms := by
  cases hl : s.get_legal_moves with
  | nil =>
    rw [isTerminalState, hl] at hs
    simp at hs
  | cons a l => exact ⟨a, l, rfl⟩

theorem expand_children_of_some {t : MNode} {m : Move}
    (hm : untriedMove t = some m) :
    (expand t).children =
      t.children ++ [MNode.mk ((deepcopy t.state).play m) 0 0 []] := by
  unfold expand
  rw [hm]
  rfl

theorem searchStep_root (choose : GoGame → Nat) (s : GoGame)
    (hs : isTerminalState s = false) (t : MNode) (hts : t.state = s) :
    (searchStep choose t).state = s ∧
    childVisitSum (searchStep choose t) = childVisitSum t + 1 := by
  obtain ⟨usel, hu⟩ := getAt_selectAux (sizeOf t) t
  simp only [searchStep, hu]
  cases hp : (selectAux (sizeOf t) t).1 with
  | nil =>
    rw [hp, getAt_nil] at hu
    obtain rfl := Option.some.inj hu
    have htermF : isTerminalState t.state = false := by rw [hts]; exact hs
    simp only [htermF, Bool.false_eq_true, if_false]
    obtain ⟨m, ms, hml⟩ := legal_cons_of_not_terminal (hts ▸ hs)
    have hm : untriedMove t = some m := by
      rw [untriedMove_eq_head, hml]
      rfl
    simp only [hm, List.nil_append]
    have hexp : (expandAt [] t).children =
        t.children ++ [MNode.mk ((deepcopy t.state).play m) 0 0 []] :=
      expand_children_of_some hm
    have hlen : t.children.length < (expandAt [] t).children.length := by
      rw [hexp]
      simp
    constructor
    · rw [state_bp_set]
      show (expand t).state = s
      rw [state_expand, hts]
    · rw [childSum_bp_set _ _ _ _ _ hlen]
      have hce : childVisitSum (expandAt [] t) = childVisitSum t := by
        show childVisitSum (expand t) = childVisitSum t
        unfold childVisitSum
        rw [expand_children_of_some hm]
        simp
      rw [hce]
  | cons i p'' =>
    obtain ⟨c, hgc, -⟩ := selectAux_head_valid (sizeOf t) t i p'' hp
    have hi : i < t.children.length := by
      rcases List.getElem?_eq_some_iff.mp hgc with ⟨hlt, -⟩
      exact hlt
    by_cases hterm : isTerminalState usel.state = true
    · simp only [hterm, if_true]
      exact ⟨by rw [state_bp_set, hts], childSum_bp_set _ _ _ _ _ hi⟩
    · simp only [hterm, Bool.false_eq_true, if_false]
      cases hm : untriedMove usel with
      | some m =>
        simp only [hm, List.cons_append]
        have hmap := childMap_expandAt_cons i p'' t
        have hi' : i < (expandAt (i :: p'') t).children.length := by
          have h := congrArg List.length hmap
          simp only [List.length_map] at h
          omega
        constructor
        · rw [state_bp_set, state_expandAt_cons, hts]
        · rw [childSum_bp_set _ _ _ _ _ hi']
          have : childVisitSum (expandAt (i :: p'') t) = childVisitSum t := by
            unfold childVisitSum
            rw [hmap]
          rw [this]
      | none =>
        simp only [hm]
        exact ⟨by rw [state_bp_set, hts], childSum_bp_set _ _ _ _ _ hi⟩

theorem searchLoop_root (choose : GoGame → Nat) (s : GoGame)
    (hs : isTerminalState s = false) :
    ∀ (n : Nat) (t : MNode), t.state = s →
      (searchLoop choose n t).state = s ∧
      childVisitSum (searchLoop choose n t) = childVisitSum t + n
  | 0, t, ht => ⟨ht, rfl⟩
  | n + 1, t, ht => by
    obtain ⟨h1, h2⟩ := searchStep_root choose s hs t ht
    obtain ⟨h3, h4⟩ := searchLoop_root choose s hs n (searchStep choose t) h1
    simp only [searchLoop]
    exact ⟨h3, by rw [h4, h2]; omega⟩

/-- C9: for every node of the tree, at every point during and after a
search (any completed iteration count `k`), its `visitCount` is at least
the sum of its children's `visitCount` values, and at the root equality
holds after the search on a non-terminal initial state, because every
iteration's backpropagation path passes through exactly one child of the
root. -/
theorem visit_sum_invariant_c9 (choose : GoGame → Nat) (s : GoGame)
    (n k : Nat) :
    (∀ p u, getAt p (searchLoop choose k (rootNode s)) = some u →
      childVisitSum u ≤ u.visits) ∧
    (isTerminalState s = false →
      (searchLoop choose n (rootNode s)).visits =
        childVisitSum (searchLoop choose n (rootNode s))) := by
  constructor
  · exact searchLoop_visitSumLe choose k (rootNode s) (rootNode_visitSumLe s)
  · intro hs
    obtain ⟨-, h2⟩ := searchLoop_root choose s hs n (rootNode s) rfl
    rw [searchLoop_visits, h2]
    simp [rootNode, childVisitSum]

theorem visit_sum_invariant_c9_witness :
    childVisitSum wNode8 ≤ wNode8.visits ∧
    isTerminalState (goEmpty 1) = false ∧
    (searchLoop choose0 2 (rootNode (goEmpty 1))).visits =
      childVisitSum (searchLoop choose0 2 (rootNode (goEmpty 1))) := by
  have hg : getAt [0] (searchLoop choose0 2 (rootNode (goEmpty 1))) =
      some wNode8 := by rfl
  exact ⟨(visit_sum_invariant_c9 choose0 (goEmpty 1) 2 2).1 [0] wNode8 hg,
    by decide,
    (visit_sum_invariant_c9 choose0 (goEmpty 1) 2 2).2 (by decide)⟩
